import Mathlib

/-!
Verification of the batch LLM-annotation pipeline of the quote-label-wizard
repository.  The definitions below are shallow embeddings of the TypeScript
source under `supabase/functions/`:

* `parseCSV`, `escapeCsvValue`   — `process-spreadsheet/index.ts` (also
  duplicated in `process-queue/index.ts` and `queue-job`),
* `escapeCsvValueExtract`        — `extract-quotes/index.ts`,
* `selectLabel` / `classifyRow` / `processSpreadsheetModel`
                                 — the classification dispatcher,
* `processJobChunkModel` / `processJobModel` / `assembleCsv`
                                 — the queued scheduler `processJob`,
* `planChunks` / `processChunkResponse` / `extractFileQuotes`
                                 — the quote-extraction path,
* `jobStatusProgress` / `jobStatusResultData` — `job-status/index.ts`.

Strings are modelled as their character lists (`String.data`); `.length`
therefore counts characters rather than UTF-16 code units, which only
differs on astral-plane characters.  JavaScript `String.prototype.trim`
is modelled by `jsTrimList` over the JS whitespace set restricted to the
code points that actually occur in the data paths.  External effects
(the OpenAI completion endpoint, the Supabase job store, `JSON.parse`)
are modelled as explicit inputs: a per-unit response oracle, a persisted
job record, and an abstract parse outcome `Option Json`.
-/

namespace QuoteLabelWizard

/-- Whitespace characters removed by the JavaScript `trim()` used in the
source (ASCII whitespace plus NBSP, BOM and the Unicode line separators). -/
def isJsSpace (c : Char) : Bool :=
  c = ' ' || c = '\t' || c = '\n' || c = '\r' || c = '\x0b' || c = '\x0c' ||
  c = ' ' || c = ' ' || c = ' ' || c = '﻿'

/-- JavaScript `value.trim()` on a character list. -/
def jsTrimList (l : List Char) : List Char :=
  ((l.dropWhile isJsSpace).reverse.dropWhile isJsSpace).reverse

/-- JavaScript `value.trim()` on strings. -/
def jsTrimStr (s : String) : String :=
  ⟨jsTrimList s.data⟩

theorem jsTrimList_length_le (l : List Char) : (jsTrimList l).length ≤ l.length := by
  unfold jsTrimList
  calc ((l.dropWhile isJsSpace).reverse.dropWhile isJsSpace).reverse.length
      = ((l.dropWhile isJsSpace).reverse.dropWhile isJsSpace).length := by
        rw [List.length_reverse]
    _ ≤ (l.dropWhile isJsSpace).reverse.length :=
        (List.dropWhile_sublist _).length_le
    _ = (l.dropWhile isJsSpace).length := by rw [List.length_reverse]
    _ ≤ l.length := (List.dropWhile_sublist _).length_le

/-! ## The CSV parser of `process-spreadsheet` / `process-queue` / `queue-job`

`parseCSV` is a character scan maintaining an `inQuotes` flag; a `","`
outside quotes ends a field (the field is pushed trimmed), a newline or
carriage return outside quotes ends a row (rows that consist solely of
empty fields are discarded, `\r\n` counts as one terminator), `""` inside
quotes is an escaped literal quote.  The trailing `filter` mirrors line 90
of the source. -/

/-- A finished field: the source pushes `currentField.trim()`. -/
def trimField (field : List Char) : String :=
  ⟨jsTrimList field⟩

/-- Shared row-termination logic (the body of the row-end branch and the
end-of-input handling are identical in the source). -/
def flushRow (field : List Char) (row : List String) (acc : List (List String)) :
    List (List String) :=
  if field ≠ [] ∨ row ≠ [] then
    let row2 := row ++ [trimField field]
    if row2.any (fun f => f.length > 0) then acc ++ [row2] else acc
  else acc

/-- The scanning loop of `parseCSV` (source lines 41-79) with the final
flush (lines 82-87).  A quote toggles `q` unless it is the first of an
escaped pair inside quotes; a comma outside quotes ends the field; a
newline or carriage return outside quotes ends the row, with `\r\n`
collapsed to a single terminator; anything else is field content. -/
def parseCSVAux (field : List Char) (row : List String) (acc : List (List String))
    (q : Bool) : List Char → List (List String)
  | [] => flushRow field row acc
  | [c] =>
    if c = '"' then
      flushRow field row acc
    else if c = ',' ∧ q = false then
      flushRow [] (row ++ [trimField field]) acc
    else if (c = '\n' ∨ c = '\r') ∧ q = false then
      flushRow [] [] (flushRow field row acc)
    else
      flushRow (field ++ [c]) row acc
  | c :: c2 :: cs =>
    if c = '"' then
      if q ∧ c2 = '"' then parseCSVAux (field ++ ['"']) row acc q cs
      else parseCSVAux field row acc (!q) (c2 :: cs)
    else if c = ',' ∧ q = false then
      parseCSVAux [] (row ++ [trimField field]) acc q (c2 :: cs)
    else if (c = '\n' ∨ c = '\r') ∧ q = false then
      if c = '\r' ∧ c2 = '\n' then parseCSVAux [] [] (flushRow field row acc) q cs
      else parseCSVAux [] [] (flushRow field row acc) q (c2 :: cs)
    else
      parseCSVAux (field ++ [c]) row acc q (c2 :: cs)
  termination_by structural l => l

/-- `parseCSV` from `process-spreadsheet/index.ts` lines 33-91. -/
def parseCSV (s : String) : List (List String) :=
  (parseCSVAux [] [] [] false s.data).filter (fun r => r.any (fun f => f.length > 0))

/-! ## The CSV field escapers -/

/-- Doubling of quotes: `value.replace(/"/g, '""')`. -/
def escQuotes (l : List Char) : List Char :=
  l.flatMap (fun c => if c = '"' then ['"', '"'] else [c])

/-- `escapeCsvValue` of `process-spreadsheet/index.ts` lines 94-102 (the
variant that also quotes values with leading or trailing whitespace). -/
def escapeCsvL (v : List Char) : List Char :=
  if ',' ∈ v ∨ '"' ∈ v ∨ '\n' ∈ v ∨ '\r' ∈ v ∨ jsTrimList v ≠ v then
    '"' :: (escQuotes v ++ ['"'])
  else v

/-- `escapeCsvValue` of `extract-quotes/index.ts` lines 329-334 (no
whitespace condition). -/
def escapeCsvExtractL (v : List Char) : List Char :=
  if ',' ∈ v ∨ '"' ∈ v ∨ '\n' ∈ v ∨ '\r' ∈ v then
    '"' :: (escQuotes v ++ ['"'])
  else v

/-- String wrapper for the classification-mode escaper. -/
def escapeCsvValue (s : String) : String :=
  ⟨escapeCsvL s.data⟩

/-- String wrapper for the extraction-mode escaper. -/
def escapeCsvValueExtract (s : String) : String :=
  ⟨escapeCsvExtractL s.data⟩

/-- JavaScript `array.join(sep)` for a one-character separator. -/
def joinSep (sep : Char) : List (List Char) → List Char
  | [] => []
  | [x] => x
  | x :: y :: xs => x ++ sep :: joinSep sep (y :: xs)

/-- One output row: fields escaped with `escapeCsvValue` and joined by
commas (source line 237). -/
def serializeFieldsL (fields : List (List Char)) : List Char :=
  joinSep ',' (fields.map escapeCsvL)

/-- The assembled data rows: rows joined by `\n` (source line 238). -/
def serializeRowsL (rows : List (List (List Char))) : List Char :=
  joinSep '\n' (rows.map serializeFieldsL)

/-- Serialization of a table with the escaper of the source, on strings. -/
def serializeRows (rows : List (List String)) : String :=
  ⟨serializeRowsL (rows.map (fun r => r.map String.data))⟩

example : parseCSV "a,b\nc,d" = [["a", "b"], ["c", "d"]] := by decide
example : parseCSV "a,\"b,c\"\nd" = [["a", "b,c"], ["d"]] := by decide
example : parseCSV "a,\"x\"\"y\"" = [["a", "x\"y"]] := by decide
example : parseCSV "\n\na\n\n" = [["a"]] := by decide
example : parseCSV "a\r\nb" = [["a"], ["b"]] := by decide
example : serializeRows [["a", "b,c"]] = "a,\"b,c\"" := by decide
example : parseCSV (serializeRows [[" a"]]) = [["a"]] := by decide

/-! ## Classification dispatch

`serve` in `process-spreadsheet/index.ts` and `processJobChunk` in
`process-queue/index.ts` send one request per data row and interpret the
response with
`labels.find(l => classification.toLowerCase().includes(l.toLowerCase())) || labels[0]`.
The completion endpoint is modelled by a response oracle
`responses : Nat → Option String`: `some content` is
`choices[0].message.content` of a successful request for the data row at
that zero-based position, `none` is any per-row failure (timeout, network
error, non-2xx status, missing response fields). -/

/-- JavaScript `haystack.includes(needle)` on character lists. -/
def containsSub (needle : List Char) : List Char → Bool
  | [] => needle.isEmpty
  | c :: cs => needle.isPrefixOf (c :: cs) || containsSub needle cs

/-- JavaScript `toLowerCase()` (accurate on the ASCII range). -/
def jsToLower (l : List Char) : List Char :=
  l.map Char.toLower

/-- The label-match predicate of source line 197-199: the lowercased label
occurs as a substring of the lowercased model response. -/
def labelMatches (classification : String) (label : String) : Bool :=
  containsSub (jsToLower label.data) (jsToLower classification.data)

/-- `labels.find(...) || labels[0]` (source line 197-199).  Note that a
matching empty-string label is falsy in JavaScript, so `|| labels[0]`
replaces it by the first label. -/
def selectLabel (labels : List String) (classification : String) : String :=
  match labels.find? (labelMatches classification) with
  | some l => if l = "" then labels.headD "" else l
  | none => labels.headD ""

/-- One row of the dispatcher: a successful response is trimmed and matched
(source line 194); any failure falls back to `labels[0]` (source line 211). -/
def classifyRow (labels : List String) (response : Option String) : String :=
  match response with
  | some content => selectLabel labels (jsTrimStr content)
  | none => labels.headD ""

/-- One `ClassificationResult` (source lines 20-25). -/
structure ClassificationResult where
  row : Nat
  originalRow : List String
  label : String
  deriving DecidableEq, Repr

/-- JavaScript `array.map((x, i) => f i x)` with a starting offset. -/
def mapWithIdx (f : Nat → α → β) : Nat → List α → List β
  | _, [] => []
  | i, a :: as => f i a :: mapWithIdx f (i + 1) as

/-- The classification run of `process-spreadsheet/index.ts`: parse, reject
inputs without a data row (line 143-145), then produce one result per data
row; the row index stored is `i + 2` (header plus 1-based display, line
162).  Batches of 5 awaited with `Promise.all` preserve submission order,
so the accumulated `results` array is the in-order map over the data rows.
The error is returned before any request is dispatched and carries no
results. -/
def processSpreadsheetModel (labels : List String) (text : String)
    (responses : Nat → Option String) : Except String (List ClassificationResult) :=
  let rows := parseCSV text
  if rows.length < 2 then
    .error "File must contain at least a header row and one data row"
  else
    .ok (mapWithIdx
      (fun i row => { row := i + 2, originalRow := row, label := classifyRow labels (responses i) })
      0 (rows.drop 1))

/-- The `queue-job` function: parses the same way, raises the same error for
inputs without a data row before inserting the job record, and otherwise
creates a job whose `total_rows` is the parsed row count minus the header. -/
def queueJobModel (text : String) : Except String Nat :=
  let rows := parseCSV text
  if rows.length < 2 then
    .error "File must contain at least a header row and one data row"
  else
    .ok (rows.length - 1)

example :
    processSpreadsheetModel ["Pos", "Neg"] "h\nr1\nr2" (fun i => if i = 0 then some "pos!" else none) =
      .ok [⟨2, ["r1"], "Pos"⟩, ⟨3, ["r2"], "Pos"⟩] := by rfl
example : selectLabel ["A", ""] "zzz" = "A" := by decide
example : List.find? (labelMatches "zzz") ["A", ""] = some "" := by decide

/-! ## The queued scheduler (`process-queue/index.ts`)

`processJob` loads the job record, re-parses the stored file, and loops
over chunks of 100 data rows; each chunk maps its rows through the
dispatcher (batches of 10 inside `processJobChunk` preserve order the same
way batches of 5 do above).  A chunk that throws is skipped and the loop
continues (lines 235-238).  After a successful chunk the record's
`processed_rows` is set to `min(startRow + chunkSize, total_rows)` (lines
226-231); the completion update stores `allResults.length` (lines 252-261).
The loop bound is `job.total_rows` and the loop always starts at row 0;
the persisted `processed_rows` of the record is never read. -/

/-- `processJobChunk` (lines 87-181): the slice
`dataRows.slice(startRow, min(startRow + chunkSize, dataRows.length))`
mapped through the dispatcher; absolute row index `startRow + i + 2`. -/
def processJobChunkModel (labels : List String) (dataRows : List (List String))
    (startRow chunkSize : Nat) (responses : Nat → Option String) :
    List ClassificationResult :=
  let endRow := min (startRow + chunkSize) dataRows.length
  let chunkRows := (dataRows.drop startRow).take (endRow - startRow)
  mapWithIdx
    (fun bi row =>
      { row := startRow + bi + 2, originalRow := row
        label := classifyRow labels (responses (startRow + bi)) })
    0 chunkRows

/-- Chunk starts `0, 100, 200, ...` below `totalRows`: the loop
`for (startRow = 0; startRow < total_rows; startRow += 100)` runs
`⌈totalRows / 100⌉` times. -/
def numChunks (totalRows : Nat) : Nat :=
  (totalRows + 99) / 100

/-- The chunk loop (lines 221-239): for each chunk index in order, a failed
chunk contributes nothing (skipped, no update); a successful chunk appends
its results and writes `min(k * 100 + 100, totalRows)` to
`processed_rows`. -/
def runChunks (labels : List String) (dataRows : List (List String)) (totalRows : Nat)
    (responses : Nat → Option String) (chunkFails : Nat → Bool) :
    List Nat → List ClassificationResult × List Nat
  | [] => ([], [])
  | k :: ks =>
    let rest := runChunks labels dataRows totalRows responses chunkFails ks
    if chunkFails k then rest
    else
      (processJobChunkModel labels dataRows (k * 100) 100 responses ++ rest.1,
       min (k * 100 + 100) totalRows :: rest.2)

/-- Observable writes of one `processJob` invocation. -/
structure JobRun where
  results : List ClassificationResult
  updates : List Nat
  finalProcessed : Nat
  deriving Repr

/-- One invocation of `processJob`.  `persistedProcessed` is the
`processed_rows` field of the loaded job record; the source never reads it
(the loop starts at row 0 unconditionally), which the definition reflects
by ignoring the argument. -/
def processJobModel (labels : List String) (totalRows : Nat)
    (dataRows : List (List String)) (_persistedProcessed : Nat)
    (responses : Nat → Option String) (chunkFails : Nat → Bool) : JobRun :=
  let out := runChunks labels dataRows totalRows responses chunkFails
    (List.range (numChunks totalRows))
  { results := out.1, updates := out.2, finalProcessed := out.1.length }

/-- The final CSV assembly of `processJob` (lines 242-249): header plus a
`Label` column, results sorted by `row` ascending, every field escaped. -/
def assembleCsv (headerRow : List String) (results : List ClassificationResult) : String :=
  let outputHeader := serializeFieldsL ((headerRow ++ ["Label"]).map String.data)
  let sorted := results.insertionSort (fun a b => a.row ≤ b.row)
  let outputRows := serializeRowsL
    (sorted.map (fun res => (res.originalRow ++ [res.label]).map String.data))
  ⟨outputHeader ++ '\n' :: outputRows⟩

example :
    assembleCsv ["H"] [⟨3, ["b"], "Neg"⟩, ⟨2, ["a"], "Pos"⟩] = "H,Label\na,Pos\nb,Neg" := by
  decide

/-! ## Quote extraction (`extract-quotes/index.ts`)

The chunk planner (lines 195-211) splits the decoded file on `"\n\n"`,
drops paragraphs that trim to nothing, and greedily accumulates paragraphs
joined by `"\n\n"`, closing the running chunk when it is non-empty and its
length plus the next paragraph length exceeds 2000.  Chunks shorter than
100 characters are skipped before dispatch (line 217-220). -/

/-- JavaScript `content.split("\n\n")`: non-overlapping left-to-right
split on the two-character separator. -/
def splitBlank (acc : List Char) : List Char → List (List Char)
  | '\n' :: '\n' :: cs => acc.reverse :: splitBlank [] cs
  | c :: cs => splitBlank (c :: acc) cs
  | [] => [acc.reverse]
  termination_by structural l => l

/-- The paragraph list of a file (line 197): split on blank lines, keep
paragraphs whose trim is non-empty. -/
def paragraphsOf (content : List Char) : List (List Char) :=
  (splitBlank [] content).filter (fun p => (jsTrimList p).length > 0)

/-- The accumulation loop (lines 200-211): `chunks`/`currentChunk` state,
and the final `if (currentChunk.trim()) chunks.push(currentChunk.trim())`. -/
def planAux : List (List Char) → List (List Char) → List Char → List (List Char)
  | [], chunks, cur =>
    if jsTrimList cur ≠ [] then chunks ++ [jsTrimList cur] else chunks
  | p :: ps, chunks, cur =>
    if cur.length + p.length > 2000 ∧ cur.length > 0 then
      planAux ps (chunks ++ [jsTrimList cur]) p
    else
      planAux ps chunks (if cur ≠ [] then cur ++ '\n' :: '\n' :: p else p)

/-- The chunk planner on character lists. -/
def planChunksL (content : List Char) : List (List Char) :=
  planAux (paragraphsOf content) [] []

/-- The chunk planner on strings. -/
def planChunks (content : String) : List String :=
  (planChunksL content.data).map (⟨·⟩)

example : planChunks "para one\n\npara two" = ["para one\n\npara two"] := by decide
example : planChunks "  \n\nx" = ["x"] := by decide

/-- JSON values as produced by `JSON.parse` (numbers carry no payload
relevant to this pipeline). -/
inductive Json where
  | null
  | bool (b : Bool)
  | num (n : Int)
  | str (s : String)
  | arr (items : List Json)
  | obj (fields : List (String × Json))

/-- JavaScript property access `j.k` on a parsed JSON value: on an object
the last binding wins (as in `JSON.parse`), anything else is `undefined`. -/
def Json.get (k : String) : Json → Option Json
  | .obj fields => (fields.reverse.find? (fun p => p.1 = k)).map (fun p => p.2)
  | _ => none

/-- `q && typeof q === "object"`: a truthy value of type object — among
JSON values exactly the objects and arrays. -/
def Json.isObjLike : Json → Bool
  | .obj _ => true
  | .arr _ => true
  | _ => false

/-- `Array.isArray(quotes)` for a parse result. -/
def Json.isArr : Json → Bool
  | .arr _ => true
  | _ => false

/-- One extracted quote (`allQuotes` entries, lines 300-306). -/
structure Quote where
  source : String
  quote : String
  context : String
  deriving DecidableEq, Repr

/-- The validity filter of lines 291-296: a truthy object whose `quote`
property is a string that trims to more than 10 characters. -/
def validQuoteJson (j : Json) : Bool :=
  j.isObjLike &&
    (match j.get "quote" with
     | some (.str s) => (jsTrimList s.data).length > 10
     | _ => false)

/-- The emitted quote of a valid entry: `quote` and `context` trimmed, a
missing or non-string `context` treated as the empty string. -/
def mkQuote (fileName : String) (j : Json) : Quote :=
  { source := fileName
    quote := match j.get "quote" with
             | some (.str s) => jsTrimStr s
             | _ => ""
    context := match j.get "context" with
               | some (.str s) => jsTrimStr s
               | _ => "" }

/-- Processing of one chunk (lines 215-316).  `parsed` is the outcome of
the request plus `JSON.parse` on the (possibly code-block-stripped)
response content: `none` is any request failure, non-2xx status or JSON
parse error.  A chunk shorter than 100 characters is skipped before any
request; a non-array parse contributes nothing; an array contributes its
valid entries in order.  No fallback quote is ever produced. -/
def processChunkResponse (fileName : String) (chunk : String)
    (parsed : Option Json) : List Quote :=
  if chunk.length < 100 then []
  else
    match parsed with
    | none => []
    | some j =>
      match j with
      | .arr items => (items.filter validQuoteJson).map (mkQuote fileName)
      | _ => []

/-- The whole extraction run for one file: plan the chunks, dispatch each,
concatenate the contributions in order (`parsedOf i` is the parse outcome
for chunk `i`). -/
def extractFileQuotes (fileName : String) (content : String)
    (parsedOf : Nat → Option Json) : List Quote :=
  (mapWithIdx (fun i chunk => processChunkResponse fileName chunk (parsedOf i))
    0 (planChunks content)).flatten

/-- The extraction-mode CSV (lines 336-340): fixed three-column header, each
field escaped with the extraction-mode escaper. -/
def extractionCsv (quotes : List Quote) : String :=
  let rows := joinSep '\n'
    (quotes.map (fun q =>
      joinSep ',' ([q.source.data, q.quote.data, q.context.data].map escapeCsvExtractL)))
  ⟨"Filename,Quote,Context\n".data ++ rows⟩

/-! ## Job status (`job-status/index.ts`) -/

/-- The job record as read back by the status endpoint. -/
structure JobRecord where
  status : String
  totalRows : Nat
  processedRows : Nat
  resultData : Option String
  deriving DecidableEq, Repr

/-- `Math.round(processed / total * 100)` for non-negative operands:
`⌊x + 1/2⌋` written over naturals; only evaluated when `total > 0`. -/
def jsRoundRatio (processed total : Nat) : Nat :=
  (200 * processed + total) / (2 * total)

/-- The `progress` field (line 47): guarded against a zero denominator. -/
def jobStatusProgress (job : JobRecord) : Nat :=
  if job.totalRows > 0 then jsRoundRatio job.processedRows job.totalRows else 0

/-- The `resultData` field (line 53): the stored payload only for a
completed job, `null` otherwise. -/
def jobStatusResultData (job : JobRecord) : Option String :=
  if job.status = "completed" then job.resultData else none

example : jobStatusProgress ⟨"processing", 0, 0, none⟩ = 0 := by decide
example : jobStatusProgress ⟨"processing", 3, 1, none⟩ = 33 := by decide
example : jobStatusProgress ⟨"processing", 2, 1, none⟩ = 50 := by decide

/-! ## Helper lemmas -/

theorem mapWithIdx_length (f : Nat → α → β) (s : Nat) (l : List α) :
    (mapWithIdx f s l).length = l.length := by
  induction l generalizing s with
  | nil => rfl
  | cons a as ih => simp [mapWithIdx, ih]

theorem mapWithIdx_getElem? (f : Nat → α → β) (s : Nat) (l : List α) (i : Nat) :
    (mapWithIdx f s l)[i]? = l[i]?.map (f (s + i)) := by
  induction l generalizing s i with
  | nil => simp [mapWithIdx]
  | cons a as ih =>
    cases i with
    | zero => simp [mapWithIdx]
    | succ j =>
      simp only [mapWithIdx, List.getElem?_cons_succ, ih (s + 1) j]
      have : s + 1 + j = s + (j + 1) := by omega
      rw [this]

theorem mapWithIdx_mem (f : Nat → α → β) (s : Nat) (l : List α) (b : β)
    (hb : b ∈ mapWithIdx f s l) : ∃ i a, l[i]? = some a ∧ b = f (s + i) a := by
  induction l generalizing s with
  | nil => simp [mapWithIdx] at hb
  | cons a as ih =>
    simp only [mapWithIdx, List.mem_cons] at hb
    rcases hb with h | h
    · exact ⟨0, a, by simp, by simpa using h⟩
    · obtain ⟨i, a2, hget, hval⟩ := ih (s + 1) h
      exact ⟨i + 1, a2, by simpa using hget, by rw [hval]; congr 1; omega⟩

theorem headD_mem (l : List String) (h : l ≠ []) : l.headD "" ∈ l := by
  cases l with
  | nil => exact absurd rfl h
  | cons a as => simp [List.headD]

theorem classifyRow_mem (labels : List String) (resp : Option String)
    (h : labels ≠ []) : classifyRow labels resp ∈ labels := by
  cases resp with
  | none => exact headD_mem labels h
  | some content =>
    simp only [classifyRow, selectLabel]
    cases hf : labels.find? (labelMatches (jsTrimStr content)) with
    | none => exact headD_mem labels h
    | some l =>
      by_cases hl : l = ""
      · simp only [hl, if_pos rfl]
        exact headD_mem labels h
      · simp only [if_neg hl]
        exact List.mem_of_find?_eq_some hf

/-! ## Claim C10 -/

/-- C10: the status query never divides by zero — a job with `totalRows = 0`
reports progress `0` instead of evaluating the rounded ratio — and the
`resultData` field of the response is non-null only when the job status is
`completed`. -/
theorem jobStatus_safe (job : JobRecord) :
    (job.totalRows = 0 → jobStatusProgress job = 0) ∧
    (∀ d, jobStatusResultData job = some d → job.status = "completed") := by
  constructor
  · intro h
    simp [jobStatusProgress, h]
  · intro d hd
    by_contra hs
    simp [jobStatusResultData, hs] at hd

/-- Concrete instantiation of `jobStatus_safe`. -/
theorem jobStatus_safe_witness :
    jobStatusProgress ⟨"processing", 0, 5, none⟩ = 0 ∧
    (⟨"completed", 4, 4, some "payload"⟩ : JobRecord).status = "completed" :=
  ⟨(jobStatus_safe ⟨"processing", 0, 5, none⟩).1 rfl,
   (jobStatus_safe ⟨"completed", 4, 4, some "payload"⟩).2 "payload" rfl⟩

/-! ## Claim C2 -/

/-- C2 counterexample: the extraction-mode escaper does not quote a value
with leading whitespace, while the classification-mode escaper does, so the
single escaping rule of the claim (which includes the leading/trailing
whitespace condition and is asserted for both modes) fails in extraction
mode. -/
theorem escapeCsv_extract_whitespace_cex :
    escapeCsvValueExtract " a" = " a" ∧ jsTrimStr " a" ≠ " a" ∧
    escapeCsvValue " a" = "\" a\"" := by
  exact ⟨by decide, by decide, by decide⟩

/-- C2 amended: both escapers return a value free of comma, quote, newline
and carriage return unchanged when it is also trim-invariant, and both wrap
a value containing one of those four characters in quotes with every
internal quote doubled; a value whose only specialty is leading/trailing
whitespace is wrapped by the classification-mode escaper but returned
unchanged by the extraction-mode escaper. -/
theorem escapeCsv_characterization (v : List Char) :
    (¬(',' ∈ v ∨ '"' ∈ v ∨ '\n' ∈ v ∨ '\r' ∈ v) ∧ jsTrimList v = v →
      escapeCsvL v = v ∧ escapeCsvExtractL v = v) ∧
    ((',' ∈ v ∨ '"' ∈ v ∨ '\n' ∈ v ∨ '\r' ∈ v) →
      escapeCsvL v = '"' :: (escQuotes v ++ ['"']) ∧
      escapeCsvExtractL v = '"' :: (escQuotes v ++ ['"'])) ∧
    (¬(',' ∈ v ∨ '"' ∈ v ∨ '\n' ∈ v ∨ '\r' ∈ v) ∧ jsTrimList v ≠ v →
      escapeCsvL v = '"' :: (escQuotes v ++ ['"']) ∧ escapeCsvExtractL v = v) := by
  refine ⟨fun h => ⟨?_, ?_⟩, fun h => ⟨?_, ?_⟩, fun h => ⟨?_, ?_⟩⟩ <;>
    simp only [escapeCsvL, escapeCsvExtractL] <;> split <;> first | rfl | tauto

/-- Concrete instantiation of `escapeCsv_characterization` at a value whose
only specialty is leading whitespace. -/
theorem escapeCsv_characterization_witness :
    escapeCsvL (" a".data) = '"' :: (escQuotes (" a".data) ++ ['"']) ∧
    escapeCsvExtractL (" a".data) = " a".data :=
  (escapeCsv_characterization (" a".data)).2.2 ⟨by decide, by decide⟩

/-! ## Claim C5 -/

/-- C5: an input whose CSV parse yields fewer than two non-empty rows makes
both the synchronous classification path and the queue-job path fail with
the error `File must contain at least a header row and one data row`; the
error value carries no results and no job, so no request is dispatched and
no job record is created. -/
theorem parse_guard (labels : List String) (text : String)
    (responses : Nat → Option String) (h : (parseCSV text).length < 2) :
    processSpreadsheetModel labels text responses =
      .error "File must contain at least a header row and one data row" ∧
    queueJobModel text =
      .error "File must contain at least a header row and one data row" := by
  constructor <;> simp [processSpreadsheetModel, queueJobModel, h]

/-- Concrete instantiation of `parse_guard` on a one-row input. -/
theorem parse_guard_witness :
    processSpreadsheetModel ["A"] "only-header" (fun _ => none) =
      .error "File must contain at least a header row and one data row" ∧
    queueJobModel "only-header" =
      .error "File must contain at least a header row and one data row" :=
  parse_guard ["A"] "only-header" (fun _ => none) (by decide)

/-! ## Claim C1 -/

/-- C1 counterexample: with labels `["A", ""]` and model response `"zzz"`,
the first label (in list order) whose text is a case-insensitive substring
of the response is the empty string, but the produced label is `"A"` — the
JavaScript `find(...) || labels[0]` discards a falsy (empty-string) match —
so the claimed selection rule fails as stated. -/
theorem classification_first_match_cex :
    processSpreadsheetModel ["A", ""] "h\nd" (fun _ => some "zzz") =
      .ok [⟨2, ["d"], "A"⟩] ∧
    List.find? (labelMatches "zzz") ["A", ""] = some "" := by
  exact ⟨by rfl, by decide⟩

/-- C1 amended: for a non-empty label list, a classification run produces
exactly one result per parsed data row (none dropped), every produced label
belongs to the label list, the result at data position `i` reports row
`i + 2` and the label of the dispatcher on response `i`; the dispatcher
picks the first matching label when that label is non-empty, and falls back
to the first label of the list when the first match is the empty string,
when no label matches, or when the request failed. -/
theorem classification_run_spec (labels : List String) (text : String)
    (responses : Nat → Option String) (results : List ClassificationResult)
    (hne : labels ≠ [])
    (hok : processSpreadsheetModel labels text responses = .ok results) :
    results.length = ((parseCSV text).drop 1).length ∧
    (∀ r ∈ results, r.label ∈ labels) ∧
    (∀ i r, results[i]? = some r →
      r.row = i + 2 ∧ r.label = classifyRow labels (responses i)) ∧
    (∀ content l, labels.find? (labelMatches (jsTrimStr content)) = some l → l ≠ "" →
      classifyRow labels (some content) = l) ∧
    (∀ content, (∀ l, labels.find? (labelMatches (jsTrimStr content)) = some l → l = "") →
      classifyRow labels (some content) = labels.headD "") ∧
    classifyRow labels none = labels.headD "" := by
  have hres : results = mapWithIdx
      (fun i row => { row := i + 2, originalRow := row
                      label := classifyRow labels (responses i) })
      0 ((parseCSV text).drop 1) := by
    simp only [processSpreadsheetModel] at hok
    split at hok
    · exact Except.noConfusion hok
    · exact ((Except.ok.injEq _ _).mp hok).symm
  refine ⟨?_, ?_, ?_, ?_, ?_, rfl⟩
  · rw [hres, mapWithIdx_length]
  · intro r hr
    rw [hres] at hr
    obtain ⟨i, a, _, hval⟩ := mapWithIdx_mem _ _ _ _ hr
    rw [hval]
    exact classifyRow_mem labels _ hne
  · intro i r hr
    rw [hres, mapWithIdx_getElem?] at hr
    cases hget : ((parseCSV text).drop 1)[i]? with
    | none => rw [hget] at hr; simp at hr
    | some row =>
      rw [hget] at hr
      have hr2 : r = { row := 0 + i + 2, originalRow := row
                       label := classifyRow labels (responses (0 + i)) } := by
        simpa using hr.symm
      subst hr2
      exact ⟨by simp, by simp⟩
  · intro content l hfind hl
    simp [classifyRow, selectLabel, hfind, hl]
  · intro content hall
    simp only [classifyRow, selectLabel]
    cases hf : labels.find? (labelMatches (jsTrimStr content)) with
    | none => rfl
    | some l => simp [hall l hf]

/-- Concrete instantiation of `classification_run_spec`. -/
theorem classification_run_spec_witness :
    ([⟨2, ["r1"], "Neg"⟩] : List ClassificationResult).length =
      ((parseCSV "h\nr1").drop 1).length ∧
    ∀ r ∈ ([⟨2, ["r1"], "Neg"⟩] : List ClassificationResult),
      r.label ∈ ["Pos", "Neg"] :=
  have h := classification_run_spec ["Pos", "Neg"] "h\nr1" (fun _ => some "neg")
    [⟨2, ["r1"], "Neg"⟩] (by decide) (by rfl)
  ⟨h.1, h.2.1⟩

/-! ## Claim C6 -/

theorem processChunkResponse_quotes (fileName : String) (chunk : String)
    (p : Option Json) (q : Quote) (hq : q ∈ processChunkResponse fileName chunk p) :
    100 ≤ chunk.length ∧ 10 < q.quote.length := by
  unfold processChunkResponse at hq
  split at hq
  · simp at hq
  case isFalse hlen =>
    constructor
    · omega
    · cases p with
      | none => simp at hq
      | some j =>
        cases j with
        | arr items =>
          simp only [List.mem_map, List.mem_filter] at hq
          obtain ⟨e, ⟨_, hvalid⟩, hmk⟩ := hq
          simp only [validQuoteJson, Bool.and_eq_true] at hvalid
          obtain ⟨_, hquote⟩ := hvalid
          cases hget : e.get "quote" with
          | none => rw [hget] at hquote; simp at hquote
          | some jv =>
            cases jv with
            | str s =>
              rw [hget] at hquote
              simp only [decide_eq_true_eq] at hquote
              rw [← hmk]
              simpa [mkQuote, hget, jsTrimStr, String.length] using hquote
            | null => rw [hget] at hquote; simp at hquote
            | bool b => rw [hget] at hquote; simp at hquote
            | num n => rw [hget] at hquote; simp at hquote
            | arr l => rw [hget] at hquote; simp at hquote
            | obj fs => rw [hget] at hquote; simp at hquote
        | null => simp at hq
        | bool b => simp at hq
        | num n => simp at hq
        | str s => simp at hq
        | obj fs => simp at hq

/-- C6: in extraction mode, every quote in the assembled output has quote
text longer than 10 characters and originates from a planner chunk of at
least 100 characters, and a chunk whose response fails to parse as JSON
(or parses to a non-array) contributes zero quotes — no fallback quote is
invented. -/
theorem extraction_quotes_spec (fileName : String) (content : String)
    (parsedOf : Nat → Option Json) :
    (∀ q ∈ extractFileQuotes fileName content parsedOf,
      10 < q.quote.length ∧
      ∃ i chunk, (planChunks content)[i]? = some chunk ∧ 100 ≤ chunk.length ∧
        q ∈ processChunkResponse fileName chunk (parsedOf i)) ∧
    (∀ chunk : String, ∀ p : Option Json,
      (p = none ∨ ∃ j, p = some j ∧ j.isArr = false) →
      processChunkResponse fileName chunk p = []) := by
  constructor
  · intro q hq
    simp only [extractFileQuotes, List.mem_flatten] at hq
    obtain ⟨sub, hsub, hqsub⟩ := hq
    obtain ⟨i, chunk, hget, hval⟩ := mapWithIdx_mem _ _ _ _ hsub
    rw [hval] at hqsub
    simp only [Nat.zero_add] at hqsub
    have hprops := processChunkResponse_quotes fileName chunk (parsedOf i) q hqsub
    exact ⟨hprops.2, i, chunk, hget, hprops.1, hqsub⟩
  · intro chunk p hp
    unfold processChunkResponse
    split
    · rfl
    · rcases hp with rfl | ⟨j, rfl, harr⟩
      · rfl
      · cases j <;> simp_all [Json.isArr]

set_option maxRecDepth 20000 in
/-- Concrete instantiation of `extraction_quotes_spec` on a 150-character
chunk whose response parses to a one-element array. -/
theorem extraction_quotes_spec_witness :
    10 < ("a sufficiently long quote" : String).length ∧
    ∃ (i : Nat) (chunk : String),
      (planChunks ⟨List.replicate 150 'a'⟩)[i]? = some chunk ∧ 100 ≤ chunk.length ∧
      (⟨"f.txt", "a sufficiently long quote", ""⟩ : Quote) ∈
        processChunkResponse "f.txt" chunk
          ((fun _ => some (.arr [.obj [("quote", .str "a sufficiently long quote")]])) i) :=
  (extraction_quotes_spec "f.txt" ⟨List.replicate 150 'a'⟩
      (fun _ => some (.arr [.obj [("quote", .str "a sufficiently long quote")]]))).1
    ⟨"f.txt", "a sufficiently long quote", ""⟩ (by decide)

/-! ## Claim C7 -/

theorem planAux_invariant (paras : List (List Char)) :
    ∀ ps chunks cur,
    (∀ c ∈ chunks, c.length ≤ 2002 ∨ ∃ p ∈ paras, c = jsTrimList p) →
    (cur = [] ∨ (∃ p ∈ paras, cur = p) ∨ cur.length ≤ 2002) →
    (∀ p ∈ ps, p ∈ paras) →
    ∀ c ∈ planAux ps chunks cur, c.length ≤ 2002 ∨ ∃ p ∈ paras, c = jsTrimList p := by
  intro ps
  induction ps with
  | nil =>
    intro chunks cur hchunks hcur _ c hc
    simp only [planAux] at hc
    split at hc
    · rcases List.mem_append.mp hc with h | h
      · exact hchunks c h
      · have hc2 : c = jsTrimList cur := by simpa using h
        rcases hcur with rfl | ⟨p, hp, hcureq⟩ | hlen
        · exact Or.inl (by simp [hc2, jsTrimList])
        · exact Or.inr ⟨p, hp, by rw [hc2, hcureq]⟩
        · exact Or.inl (hc2 ▸ le_trans (jsTrimList_length_le cur) hlen)
    · exact hchunks c hc
  | cons p ps ih =>
    intro chunks cur hchunks hcur hps c hc
    simp only [planAux] at hc
    have hpp : p ∈ paras := hps p (by simp)
    split at hc
    case isTrue hcond =>
      refine ih _ _ ?_ (Or.inr (Or.inl ⟨p, hpp, rfl⟩)) (fun a ha => hps a (by simp [ha])) c hc
      intro a ha
      rcases List.mem_append.mp ha with h | h
      · exact hchunks a h
      · have ha2 : a = jsTrimList cur := by simpa using h
        rcases hcur with rfl | ⟨p0, hp0, hcureq⟩ | hlen
        · simp at hcond
        · exact Or.inr ⟨p0, hp0, by rw [ha2, hcureq]⟩
        · exact Or.inl (ha2 ▸ le_trans (jsTrimList_length_le cur) hlen)
    case isFalse hcond =>
      refine ih _ _ hchunks ?_ (fun a ha => hps a (by simp [ha])) c hc
      by_cases hnil : cur = []
      · exact Or.inr (Or.inl ⟨p, hpp, by simp [hnil]⟩)
      · have hpos : cur.length > 0 := List.length_pos.mpr hnil
        have hsmall : cur.length + p.length ≤ 2000 := by
          by_contra hbig
          exact hcond ⟨by omega, hpos⟩
        refine Or.inr (Or.inr ?_)
        simp only [if_pos hnil]
        simp only [List.length_append, List.length_cons]
        omega

theorem splitBlank_replicate_a (acc : List Char) (n : Nat) :
    splitBlank acc (List.replicate n 'a') = [acc.reverse ++ List.replicate n 'a'] := by
  induction n generalizing acc with
  | zero => simp [splitBlank]
  | succ m ih =>
    rw [List.replicate_succ]
    have hstep : splitBlank acc ('a' :: List.replicate m 'a') =
        splitBlank ('a' :: acc) (List.replicate m 'a') := rfl
    rw [hstep, ih]
    simp

theorem jsTrimList_replicate_a (n : Nat) :
    jsTrimList (List.replicate n 'a') = List.replicate n 'a' := by
  cases n with
  | zero => rfl
  | succ m =>
    have h1 : List.dropWhile isJsSpace ('a' :: List.replicate m 'a') =
        'a' :: List.replicate m 'a' := by
      rw [List.dropWhile_cons]
      simp [isJsSpace]
    unfold jsTrimList
    rw [List.replicate_succ, h1, ← List.replicate_succ, List.reverse_replicate,
      List.replicate_succ, h1, ← List.replicate_succ, List.reverse_replicate]

theorem planChunksL_replicate_a (n : Nat) (hn : 0 < n) :
    planChunksL (List.replicate n 'a') = [List.replicate n 'a'] := by
  have hne : List.replicate n 'a' ≠ [] := by
    intro h
    have hlen := congrArg List.length h
    simp only [List.length_replicate, List.length_nil] at hlen
    omega
  unfold planChunksL paragraphsOf
  rw [splitBlank_replicate_a]
  simp only [List.reverse_nil, List.nil_append, List.filter_cons, List.filter_nil,
    jsTrimList_replicate_a, List.length_replicate]
  rw [if_pos (by simpa using hn)]
  have h1 : planAux [List.replicate n 'a'] [] [] =
      planAux [] [] (List.replicate n 'a') := by
    simp [planAux]
  rw [h1]
  simp [planAux, jsTrimList_replicate_a, hne]

/-- C7 counterexample: a single paragraph of 2001 characters is planned as
one single 2001-character segment — the planner never splits inside a
paragraph, so segments are not all under the ~2000-character target. -/
theorem planChunks_oversize_cex :
    planChunks ⟨List.replicate 2001 'a'⟩ = [⟨List.replicate 2001 'a'⟩] ∧
    2000 < (⟨List.replicate 2001 'a'⟩ : String).length := by
  constructor
  · show (planChunksL (List.replicate 2001 'a')).map _ = _
    rw [planChunksL_replicate_a 2001 (by omega)]
    rfl
  · show 2000 < (List.replicate 2001 'a').length
    simp only [List.length_replicate]
    omega

/-- C7 amended: every segment the planner emits is either at most 2002
characters (the 2000-character target plus the two joining newline
characters, since the greedy accumulation closes a non-empty segment as
soon as the next paragraph would push `current.length + paragraph.length`
over 2000) or the trim of one single paragraph, which may exceed the
target; splits are only placed at blank-line paragraph boundaries. -/
theorem planChunks_bound (content : String) :
    ∀ c ∈ planChunks content,
      c.length ≤ 2002 ∨ ∃ p ∈ paragraphsOf content.data, c.data = jsTrimList p := by
  intro c hc
  simp only [planChunks, List.mem_map] at hc
  obtain ⟨l, hl, rfl⟩ := hc
  have h := planAux_invariant (paragraphsOf content.data) (paragraphsOf content.data)
    [] [] (by simp) (Or.inl rfl) (fun _ hp => hp) l hl
  rcases h with h | ⟨p, hp, rfl⟩
  · exact Or.inl h
  · exact Or.inr ⟨p, hp, rfl⟩

/-- Concrete instantiation of `planChunks_bound`. -/
theorem planChunks_bound_witness :
    ("x\n\ny" : String).length ≤ 2002 ∨
    ∃ p ∈ paragraphsOf ("x\n\ny" : String).data, ("x\n\ny" : String).data = jsTrimList p :=
  planChunks_bound "x\n\ny" "x\n\ny" (by decide)

/-! ## Claim C4 -/

theorem pairwise_row_strict {l : List ClassificationResult}
    (h1 : l.Pairwise (fun a b => a.row ≤ b.row))
    (h2 : l.Pairwise (fun a b => a.row ≠ b.row)) :
    l.Pairwise (fun a b => a.row < b.row) := by
  induction l with
  | nil => exact .nil
  | cons a t ih =>
    cases h1 with
    | cons ha1 ht1 =>
      cases h2 with
      | cons ha2 ht2 =>
        exact .cons (fun b hb => lt_of_le_of_ne (ha1 b hb) (ha2 b hb)) (ih ht1 ht2)

/-- C4: for a fixed set of results with pairwise-distinct unit indices, the
assembled CSV depends only on the set, not on the completion order: any
permutation of the result list produces the identical CSV, because the
assembler sorts by `row` ascending before emitting. -/
theorem assembleCsv_order_invariant (header : List String)
    (l₁ l₂ : List ClassificationResult) (hperm : l₁.Perm l₂)
    (hkeys : (l₁.map (fun r => r.row)).Nodup) :
    assembleCsv header l₁ = assembleCsv header l₂ := by
  unfold assembleCsv
  haveI : IsTotal ClassificationResult (fun a b => a.row ≤ b.row) :=
    ⟨fun a b => Nat.le_total a.row b.row⟩
  haveI : IsTrans ClassificationResult (fun a b => a.row ≤ b.row) :=
    ⟨fun _ _ _ hab hbc => le_trans hab hbc⟩
  haveI : IsAntisymm ClassificationResult (fun a b => a.row < b.row) :=
    ⟨fun a b h1 h2 => absurd (lt_trans h1 h2) (lt_irrefl _)⟩
  have hsorteq : l₁.insertionSort (fun a b => a.row ≤ b.row) =
      l₂.insertionSort (fun a b => a.row ≤ b.row) := by
    have hp1 := List.perm_insertionSort (fun a b => a.row ≤ b.row) l₁
    have hp2 := List.perm_insertionSort (fun a b => a.row ≤ b.row) l₂
    have hperm12 : (l₁.insertionSort (fun a b => a.row ≤ b.row)).Perm
        (l₂.insertionSort (fun a b => a.row ≤ b.row)) :=
      (hp1.trans hperm).trans hp2.symm
    have hne1 : (l₁.insertionSort (fun a b => a.row ≤ b.row)).Pairwise
        (fun a b => a.row ≠ b.row) := by
      have hnodup : ((l₁.insertionSort (fun a b => a.row ≤ b.row)).map
          (fun r => r.row)).Nodup := ((hp1.map (fun r => r.row)).nodup_iff).mpr hkeys
      exact (List.pairwise_map.mp hnodup)
    have hne2 : (l₂.insertionSort (fun a b => a.row ≤ b.row)).Pairwise
        (fun a b => a.row ≠ b.row) := by
      have hkeys2 : (l₂.map (fun r => r.row)).Nodup :=
        ((hperm.map (fun r => r.row)).nodup_iff).mp hkeys
      have hnodup : ((l₂.insertionSort (fun a b => a.row ≤ b.row)).map
          (fun r => r.row)).Nodup := ((hp2.map (fun r => r.row)).nodup_iff).mpr hkeys2
      exact (List.pairwise_map.mp hnodup)
    exact List.eq_of_perm_of_sorted hperm12
      (pairwise_row_strict (List.sorted_insertionSort _ l₁) hne1)
      (pairwise_row_strict (List.sorted_insertionSort _ l₂) hne2)
  rw [hsorteq]

/-- Concrete instantiation of `assembleCsv_order_invariant` on two
completion orders of the same two results. -/
theorem assembleCsv_order_invariant_witness :
    assembleCsv ["H"] [⟨3, ["b"], "Neg"⟩, ⟨2, ["a"], "Pos"⟩] =
      assembleCsv ["H"] [⟨2, ["a"], "Pos"⟩, ⟨3, ["b"], "Neg"⟩] :=
  assembleCsv_order_invariant ["H"] [⟨3, ["b"], "Neg"⟩, ⟨2, ["a"], "Pos"⟩]
    [⟨2, ["a"], "Pos"⟩, ⟨3, ["b"], "Neg"⟩] (List.Perm.swap _ _ _) (by decide)

/-! ## Scheduler lemmas for claims C8 and C9 -/

/-- The `processed_rows` values written during the chunk loop followed by
the value of the completion update. -/
def updatesSeq (run : JobRun) : List Nat :=
  run.updates ++ [run.finalProcessed]

theorem runChunks_eq (labels : List String) (dataRows : List (List String))
    (totalRows : Nat) (responses : Nat → Option String) (chunkFails : Nat → Bool)
    (ks : List Nat) :
    runChunks labels dataRows totalRows responses chunkFails ks =
      (((ks.filter (fun k => !chunkFails k)).map
          (fun k => processJobChunkModel labels dataRows (k * 100) 100 responses)).flatten,
       (ks.filter (fun k => !chunkFails k)).map (fun k => min (k * 100 + 100) totalRows)) := by
  induction ks with
  | nil => rfl
  | cons k ks ih =>
    simp only [runChunks, ih, List.filter_cons]
    by_cases h : chunkFails k <;> simp [h]

theorem processJobChunkModel_length (labels : List String) (dataRows : List (List String))
    (s : Nat) (responses : Nat → Option String) :
    (processJobChunkModel labels dataRows s 100 responses).length =
      min 100 (dataRows.length - s) := by
  unfold processJobChunkModel
  rw [mapWithIdx_length, List.length_take, List.length_drop]
  omega

theorem mapWithIdx_row_map (labels : List String) (responses : Nat → Option String)
    (s : Nat) (l : List (List String)) (i0 : Nat) :
    ((mapWithIdx (fun bi row =>
        ({ row := s + bi + 2, originalRow := row
           label := classifyRow labels (responses (s + bi)) } : ClassificationResult))
      i0 l).map (fun r => r.row)) = List.range' (s + i0 + 2) l.length := by
  induction l generalizing i0 with
  | nil => simp [mapWithIdx]
  | cons a as ih =>
    simp only [mapWithIdx, List.map_cons, List.length_cons]
    rw [List.range'_succ, ih (i0 + 1),
      show s + (i0 + 1) + 2 = s + i0 + 2 + 1 from by omega]

theorem processJobChunkModel_rows (labels : List String) (dataRows : List (List String))
    (s : Nat) (responses : Nat → Option String) :
    ((processJobChunkModel labels dataRows s 100 responses).map (fun r => r.row)) =
      List.range' (s + 2) (min 100 (dataRows.length - s)) := by
  unfold processJobChunkModel
  rw [mapWithIdx_row_map labels responses s _ 0]
  rw [List.length_take, List.length_drop]
  congr 1
  omega

theorem chunkSizes_sum_le (len : Nat) (ks : List Nat) (hks : ks.Pairwise (· < ·)) :
    ∀ b, (∀ k ∈ ks, b ≤ k) →
      ((ks.map (fun k => min 100 (len - k * 100))).sum) ≤ len - b * 100 := by
  induction ks with
  | nil => simp
  | cons k ks ih =>
    intro b hb
    have hk : b ≤ k := hb k (by simp)
    obtain ⟨hhead, htail⟩ := List.pairwise_cons.mp hks
    have hrec := ih htail (k + 1) (fun j hj => hhead j hj)
    simp only [List.map_cons, List.sum_cons]
    omega

theorem sum_min_chunks (t : Nat) (n : Nat) :
    ((List.range n).map (fun k => min 100 (t - k * 100))).sum = min (n * 100) t := by
  induction n with
  | zero => simp
  | succ m ih =>
    rw [List.range_succ, List.map_append, List.sum_append, ih]
    simp only [List.map_cons, List.map_nil, List.sum_cons, List.sum_nil]
    omega

theorem flatten_chunk_rows (labels : List String) (dataRows : List (List String))
    (totalRows : Nat) (responses : Nat → Option String)
    (htot : dataRows.length = totalRows) :
    ∀ n, n ≤ numChunks totalRows →
      ((((List.range n).map
          (fun k => processJobChunkModel labels dataRows (k * 100) 100 responses)).flatten).map
        (fun r => r.row)) = List.range' 2 (min (n * 100) totalRows) := by
  intro n
  induction n with
  | zero => intro _; simp
  | succ m ih =>
    intro hn
    have hm := ih (by omega)
    have hlt : m * 100 < totalRows := by
      unfold numChunks at hn
      omega
    rw [List.range_succ, List.map_append, List.flatten_append, List.map_append, hm]
    simp only [List.map_cons, List.map_nil, List.flatten_cons, List.flatten_nil,
      List.append_nil]
    rw [processJobChunkModel_rows, htot]
    have happ := List.range'_append 2 (min (m * 100) totalRows)
      (min 100 (totalRows - m * 100)) 1
    simp only [Nat.one_mul] at happ
    rw [show m * 100 + 2 = 2 + min (m * 100) totalRows from by omega, happ,
      show min 100 (totalRows - m * 100) + min (m * 100) totalRows =
        min ((m + 1) * 100) totalRows from by omega]

/-! ## Claim C9 -/

set_option maxRecDepth 20000 in
/-- C9 counterexample: with 200 data rows and the first chunk failing, the
chunk loop persists `processed_rows = 200` after the second chunk, but the
completion update then stores `allResults.length = 100` — the sequence of
stored values `[200, 100]` is not monotonically non-decreasing. -/
theorem processedRows_nonmonotone_cex :
    updatesSeq (processJobModel ["A"] 200 (List.replicate 200 ["x"]) 0
      (fun _ => none) (fun k => k == 0)) = [200, 100] ∧
    ¬ List.Chain' (· ≤ ·) [200, 100] := by
  refine ⟨by decide, ?_⟩
  intro h
  rw [List.chain'_cons] at h
  omega

/-- C9 amended: the per-chunk progress updates alone are monotonically
non-decreasing and never exceed `totalRows`, and the final completion
update also never exceeds `totalRows`; when no chunk fails, the whole
sequence of updates including the completion update is monotonically
non-decreasing and bounded by `totalRows`.  (When a chunk fails, the
completion update stores the count of successfully processed rows, which
can be smaller than the last persisted per-chunk value.) -/
theorem processJob_updates_spec (labels : List String) (dataRows : List (List String))
    (totalRows persisted : Nat) (responses : Nat → Option String)
    (chunkFails : Nat → Bool) (htot : dataRows.length = totalRows) :
    List.Chain' (· ≤ ·)
      (processJobModel labels totalRows dataRows persisted responses chunkFails).updates ∧
    (∀ u ∈ (processJobModel labels totalRows dataRows persisted responses chunkFails).updates,
      u ≤ totalRows) ∧
    (processJobModel labels totalRows dataRows persisted responses chunkFails).finalProcessed
      ≤ totalRows ∧
    ((∀ k, chunkFails k = false) →
      List.Chain' (· ≤ ·)
        (updatesSeq (processJobModel labels totalRows dataRows persisted responses chunkFails)) ∧
      ∀ u ∈ updatesSeq (processJobModel labels totalRows dataRows persisted responses chunkFails),
        u ≤ totalRows) := by
  have hupd : (processJobModel labels totalRows dataRows persisted responses chunkFails).updates =
      ((List.range (numChunks totalRows)).filter (fun k => !chunkFails k)).map
        (fun k => min (k * 100 + 100) totalRows) := by
    simp [processJobModel, runChunks_eq]
  have hres : (processJobModel labels totalRows dataRows persisted responses chunkFails).finalProcessed =
      (((List.range (numChunks totalRows)).filter (fun k => !chunkFails k)).map
        (fun k => processJobChunkModel labels dataRows (k * 100) 100 responses)).flatten.length := by
    simp [processJobModel, runChunks_eq]
  have hpw : ((List.range (numChunks totalRows)).filter (fun k => !chunkFails k)).Pairwise
      (· < ·) := (List.pairwise_lt_range _).filter _
  have hchain : List.Chain' (· ≤ ·)
      (processJobModel labels totalRows dataRows persisted responses chunkFails).updates := by
    rw [hupd]
    exact (List.pairwise_map.mpr (hpw.imp (fun h => by omega))).chain'
  have hbound : ∀ u ∈ (processJobModel labels totalRows dataRows persisted responses
      chunkFails).updates, u ≤ totalRows := by
    intro u hu
    rw [hupd] at hu
    obtain ⟨k, _, rfl⟩ := List.mem_map.mp hu
    exact Nat.min_le_right _ _
  have hfinal : (processJobModel labels totalRows dataRows persisted responses
      chunkFails).finalProcessed ≤ totalRows := by
    rw [hres, List.length_flatten, List.map_map]
    have hfun : ((List.range (numChunks totalRows)).filter (fun k => !chunkFails k)).map
        (List.length ∘ fun k => processJobChunkModel labels dataRows (k * 100) 100 responses) =
        ((List.range (numChunks totalRows)).filter (fun k => !chunkFails k)).map
          (fun k => min 100 (totalRows - k * 100)) := by
      refine List.map_congr_left (fun a _ => ?_)
      simp only [Function.comp_apply, processJobChunkModel_length, htot]
    rw [hfun]
    have := chunkSizes_sum_le totalRows _ hpw 0 (fun _ _ => Nat.zero_le _)
    simpa using this
  refine ⟨hchain, hbound, hfinal, fun hall => ?_⟩
  have hfilter : (List.range (numChunks totalRows)).filter (fun k => !chunkFails k) =
      List.range (numChunks totalRows) :=
    List.filter_eq_self.mpr (fun a _ => by simp [hall a])
  have hfin_eq : (processJobModel labels totalRows dataRows persisted responses
      chunkFails).finalProcessed = totalRows := by
    rw [hres, hfilter, List.length_flatten, List.map_map]
    have hfun : (List.range (numChunks totalRows)).map
        (List.length ∘ fun k => processJobChunkModel labels dataRows (k * 100) 100 responses) =
        (List.range (numChunks totalRows)).map (fun k => min 100 (totalRows - k * 100)) := by
      refine List.map_congr_left (fun a _ => ?_)
      simp only [Function.comp_apply, processJobChunkModel_length, htot]
    rw [hfun, sum_min_chunks]
    unfold numChunks
    omega
  constructor
  · unfold updatesSeq
    rw [List.chain'_append]
    refine ⟨hchain, List.chain'_singleton _, fun x hx y hy => ?_⟩
    simp only [List.head?_cons, Option.mem_def, Option.some.injEq] at hy
    subst hy
    rw [hfin_eq]
    obtain ⟨hne, rfl⟩ := List.mem_getLast?_eq_getLast hx
    exact hbound _ (List.getLast_mem hne)
  · intro u hu
    unfold updatesSeq at hu
    rcases List.mem_append.mp hu with h | h
    · exact hbound u h
    · simp only [List.mem_singleton] at h
      subst h
      rw [hfin_eq]

/-- Concrete instantiation of `processJob_updates_spec`. -/
theorem processJob_updates_spec_witness :
    (processJobModel ["A"] 2 [["x"], ["y"]] 0 (fun _ => none)
      (fun _ => false)).finalProcessed ≤ 2 :=
  (processJob_updates_spec ["A"] [["x"], ["y"]] 2 0 (fun _ => none) (fun _ => false)
    (by decide)).2.2.1

/-! ## Claim C8 -/

set_option maxRecDepth 20000 in
/-- C8 counterexample: an invocation of the scheduler on a 200-row job whose
record carries `processed_rows = 100` still processes all 200 rows starting
from the first data row (row index 2), and its outcome is identical to an
invocation with `processed_rows = 0` — the scheduler neither checks any
wall-clock budget (time is not even an input of the loop) nor resumes from
the persisted offset. -/
theorem scheduler_no_budget_cex :
    (processJobModel ["A"] 200 (List.replicate 200 ["x"]) 100 (fun _ => none)
      (fun _ => false)).results.length = 200 ∧
    ((processJobModel ["A"] 200 (List.replicate 200 ["x"]) 100 (fun _ => none)
      (fun _ => false)).results.map (fun r => r.row)).head? = some 2 ∧
    processJobModel ["A"] 200 (List.replicate 200 ["x"]) 100 (fun _ => none)
      (fun _ => false) =
    processJobModel ["A"] 200 (List.replicate 200 ["x"]) 0 (fun _ => none)
      (fun _ => false) := by
  exact ⟨by decide, by decide, rfl⟩

/-- C8 amended: one invocation of the scheduler ignores the persisted
`processedUnits` value entirely (two invocations with different persisted
offsets behave identically), and — when no chunk fails — processes every
data row of the job from row 0 in that single invocation, reporting
`totalRows` processed; there is no wall-clock budget check and no
resumption. -/
theorem scheduler_single_invocation (labels : List String)
    (dataRows : List (List String)) (totalRows p1 p2 : Nat)
    (responses : Nat → Option String) (chunkFails : Nat → Bool)
    (htot : dataRows.length = totalRows) :
    processJobModel labels totalRows dataRows p1 responses chunkFails =
      processJobModel labels totalRows dataRows p2 responses chunkFails ∧
    ((∀ k, chunkFails k = false) →
      ((processJobModel labels totalRows dataRows p1 responses chunkFails).results.map
        (fun r => r.row)) = List.range' 2 totalRows ∧
      (processJobModel labels totalRows dataRows p1 responses chunkFails).finalProcessed =
        totalRows) := by
  refine ⟨rfl, fun hall => ?_⟩
  have hfilter : (List.range (numChunks totalRows)).filter (fun k => !chunkFails k) =
      List.range (numChunks totalRows) :=
    List.filter_eq_self.mpr (fun a _ => by simp [hall a])
  have hresults : (processJobModel labels totalRows dataRows p1 responses chunkFails).results =
      ((List.range (numChunks totalRows)).map
        (fun k => processJobChunkModel labels dataRows (k * 100) 100 responses)).flatten := by
    simp [processJobModel, runChunks_eq, hfilter]
  have hrows : ((processJobModel labels totalRows dataRows p1 responses chunkFails).results.map
      (fun r => r.row)) = List.range' 2 totalRows := by
    rw [hresults,
      flatten_chunk_rows labels dataRows totalRows responses htot _ (le_refl _),
      show min (numChunks totalRows * 100) totalRows = totalRows from by unfold numChunks; omega]
  refine ⟨hrows, ?_⟩
  have hlen : (processJobModel labels totalRows dataRows p1 responses chunkFails).finalProcessed =
      (processJobModel labels totalRows dataRows p1 responses chunkFails).results.length := by
    simp [processJobModel]
  rw [hlen, ← List.length_map _ (fun r => r.row), hrows]
  simp [List.length_range']

/-- Concrete instantiation of `scheduler_single_invocation`. -/
theorem scheduler_single_invocation_witness :
    ((processJobModel ["A"] 2 [["x"], ["y"]] 7 (fun _ => none)
      (fun _ => false)).results.map (fun r => r.row)) = List.range' 2 2 :=
  ((scheduler_single_invocation ["A"] [["x"], ["y"]] 2 7 0 (fun _ => none)
    (fun _ => false) (by decide)).2 (fun _ => rfl)).1

/-! ## Round-trip lemmas for claim C3

One-character step lemmas for the scanner, each proved by case analysis on
the rest of the input (the source handles the last character without a
lookahead, which the `[c]` equation of `parseCSVAux` mirrors). -/

theorem step_open (f : List Char) (r : List String) (a : List (List String))
    (cs : List Char) :
    parseCSVAux f r a false ('"' :: cs) = parseCSVAux f r a true cs := by
  cases cs with
  | nil => simp [parseCSVAux]
  | cons c2 cs2 => simp [parseCSVAux]

theorem step_escaped (f : List Char) (r : List String) (a : List (List String))
    (cs : List Char) :
    parseCSVAux f r a true ('"' :: '"' :: cs) = parseCSVAux (f ++ ['"']) r a true cs := by
  simp [parseCSVAux]

theorem step_close (f : List Char) (r : List String) (a : List (List String))
    (cs : List Char) (hcs : cs.head? ≠ some '"') :
    parseCSVAux f r a true ('"' :: cs) = parseCSVAux f r a false cs := by
  cases cs with
  | nil => simp [parseCSVAux]
  | cons c2 cs2 =>
    have hc2 : c2 ≠ '"' := by simpa using hcs
    simp [parseCSVAux, hc2]

theorem step_quoted_char (c : Char) (hc : c ≠ '"') (f : List Char) (r : List String)
    (a : List (List String)) (cs : List Char) :
    parseCSVAux f r a true (c :: cs) = parseCSVAux (f ++ [c]) r a true cs := by
  cases cs with
  | nil => simp [parseCSVAux, hc]
  | cons c2 cs2 => simp [parseCSVAux, hc]

theorem step_plain_char (c : Char) (hc1 : c ≠ '"') (hc2 : c ≠ ',') (hc3 : c ≠ '\n')
    (hc4 : c ≠ '\r') (f : List Char) (r : List String) (a : List (List String))
    (cs : List Char) :
    parseCSVAux f r a false (c :: cs) = parseCSVAux (f ++ [c]) r a false cs := by
  cases cs with
  | nil => simp [parseCSVAux, hc1, hc2, hc3, hc4]
  | cons c2 cs2 => simp [parseCSVAux, hc1, hc2, hc3, hc4]

theorem step_comma (f : List Char) (r : List String) (a : List (List String))
    (cs : List Char) :
    parseCSVAux f r a false (',' :: cs) =
      parseCSVAux [] (r ++ [trimField f]) a false cs := by
  cases cs with
  | nil => simp [parseCSVAux]
  | cons c2 cs2 => simp [parseCSVAux]

theorem step_newline (f : List Char) (r : List String) (a : List (List String))
    (cs : List Char) :
    parseCSVAux f r a false ('\n' :: cs) =
      parseCSVAux [] [] (flushRow f r a) false cs := by
  cases cs with
  | nil => simp [parseCSVAux, flushRow]
  | cons c2 cs2 => simp [parseCSVAux]

theorem step_end (f : List Char) (r : List String) (a : List (List String)) :
    parseCSVAux f r a false [] = flushRow f r a := rfl

/-- Scanning the quote-doubled image of arbitrary content inside quotes
appends exactly that content to the field buffer. -/
theorem scan_quoted (v : List Char) :
    ∀ (f : List Char) (r : List String) (a : List (List String)) (cs : List Char),
      parseCSVAux f r a true (escQuotes v ++ cs) = parseCSVAux (f ++ v) r a true cs := by
  induction v with
  | nil => intro f r a cs; simp [escQuotes]
  | cons c v ih =>
    intro f r a cs
    by_cases hc : c = '"'
    · subst hc
      have hshape : escQuotes ('"' :: v) ++ cs = '"' :: '"' :: (escQuotes v ++ cs) := by
        simp [escQuotes]
      rw [hshape, step_escaped, ih]
      simp
    · have hshape : escQuotes (c :: v) ++ cs = c :: (escQuotes v ++ cs) := by
        simp [escQuotes, hc]
      rw [hshape, step_quoted_char c hc, ih]
      simp

/-- Scanning content free of the four special characters outside quotes
appends exactly that content to the field buffer. -/
theorem scan_plain (v : List Char)
    (hv : ∀ c ∈ v, c ≠ '"' ∧ c ≠ ',' ∧ c ≠ '\n' ∧ c ≠ '\r') :
    ∀ (f : List Char) (r : List String) (a : List (List String)) (cs : List Char),
      parseCSVAux f r a false (v ++ cs) = parseCSVAux (f ++ v) r a false cs := by
  induction v with
  | nil => intro f r a cs; simp
  | cons c v ih =>
    intro f r a cs
    obtain ⟨h1, h2, h3, h4⟩ := hv c (by simp)
    have ih2 := ih (fun c2 hc2 => hv c2 (by simp [hc2]))
    rw [List.cons_append, step_plain_char c h1 h2 h3 h4, ih2]
    simp

/-- Scanning one escaped field leaves the parser with that field's raw text
in the buffer, provided the next character is not a quote. -/
theorem scan_escaped_field (v : List Char) (f : List Char) (r : List String)
    (a : List (List String)) (cs : List Char) (hcs : cs.head? ≠ some '"') :
    parseCSVAux f r a false (escapeCsvL v ++ cs) = parseCSVAux (f ++ v) r a false cs := by
  unfold escapeCsvL
  split
  case isTrue h =>
    have hshape : ('"' :: (escQuotes v ++ ['"'])) ++ cs =
        '"' :: (escQuotes v ++ ('"' :: cs)) := by
      simp
    rw [hshape, step_open, scan_quoted, step_close _ _ _ _ hcs]
  case isFalse h =>
    refine scan_plain v ?_ f r a cs
    intro c hc
    refine ⟨?_, ?_, ?_, ?_⟩ <;> intro hceq <;> subst hceq <;> exact h (by tauto)

/-- Scanning one serialized row of trim-invariant fields pushes all but the
last field (trimmed, hence unchanged) and leaves the last field in the
buffer. -/
theorem scan_row (gs : List (List Char)) :
    ∀ (g : List Char) (r : List String) (a : List (List String)) (cs : List Char),
      cs.head? ≠ some '"' →
      (∀ x ∈ g :: gs, jsTrimList x = x) →
      parseCSVAux [] r a false (serializeFieldsL (g :: gs) ++ cs) =
        parseCSVAux ((g :: gs).getLast (by simp))
          (r ++ ((g :: gs).dropLast.map (fun x => (⟨x⟩ : String)))) a false cs := by
  induction gs with
  | nil =>
    intro g r a cs hcs _
    have hshape : serializeFieldsL [g] = escapeCsvL g := by
      simp [serializeFieldsL, joinSep]
    rw [hshape, scan_escaped_field g [] r a cs hcs]
    simp
  | cons t gs ih =>
    intro g r a cs hcs htrim
    have hshape : serializeFieldsL (g :: t :: gs) ++ cs =
        escapeCsvL g ++ (',' :: (serializeFieldsL (t :: gs) ++ cs)) := by
      simp [serializeFieldsL, joinSep]
    rw [hshape, scan_escaped_field g [] r a _ (by simp), List.nil_append, step_comma]
    have htf : trimField g = (⟨g⟩ : String) := by
      unfold trimField
      rw [htrim g (by simp)]
    rw [htf, ih t (r ++ [(⟨g⟩ : String)]) a cs hcs (fun x hx => htrim x (by simp [hx]))]
    have hlast : (t :: gs).getLast (by simp) = (g :: t :: gs).getLast (by simp) :=
      (List.getLast_cons (by simp)).symm
    rw [hlast]
    congr 1
    simp

/-- Flushing the state left by `scan_row` appends exactly the original row
(as strings) to the accumulator. -/
theorem flushRow_serialized (row : List (List Char)) (hne : row ≠ [])
    (htrim : ∀ f ∈ row, jsTrimList f = f) (hsome : ∃ f ∈ row, f ≠ [])
    (a : List (List String)) :
    flushRow (row.getLast hne) (row.dropLast.map (fun x => (⟨x⟩ : String))) a =
      a ++ [row.map (fun x => (⟨x⟩ : String))] := by
  unfold flushRow
  have hcond : row.getLast hne ≠ [] ∨
      row.dropLast.map (fun x => (⟨x⟩ : String)) ≠ [] := by
    by_contra hno
    push_neg at hno
    obtain ⟨hlast, hdrop⟩ := hno
    have hdrop2 : row.dropLast = [] := by
      cases hd : row.dropLast with
      | nil => rfl
      | cons x t => rw [hd] at hdrop; simp at hdrop
    have hrow : row = [row.getLast hne] := by
      conv_lhs => rw [← List.dropLast_append_getLast hne]
      rw [hdrop2, List.nil_append]
    obtain ⟨f, hf, hfne⟩ := hsome
    rw [hrow, hlast] at hf
    simp only [List.mem_singleton] at hf
    exact hfne hf
  rw [if_pos hcond]
  have htf : trimField (row.getLast hne) = (⟨row.getLast hne⟩ : String) := by
    unfold trimField
    rw [htrim _ (List.getLast_mem hne)]
  rw [htf]
  have hjoin : row.dropLast.map (fun x => (⟨x⟩ : String)) ++ [(⟨row.getLast hne⟩ : String)] =
      row.map (fun x => (⟨x⟩ : String)) := by
    conv_rhs => rw [← List.dropLast_append_getLast hne]
    rw [List.map_append]
    simp
  rw [hjoin]
  have hany : (row.map (fun x => (⟨x⟩ : String))).any (fun f => f.length > 0) = true := by
    obtain ⟨f, hf, hfne⟩ := hsome
    refine List.any_eq_true.mpr ⟨⟨f⟩, List.mem_map_of_mem _ hf, ?_⟩
    have : f.length > 0 := List.length_pos.mpr hfne
    simpa [String.length] using this
  rw [if_pos hany]

/-- Scanning the full serialization of a table of trim-invariant rows, each
with at least one non-empty field, appends exactly those rows to the
accumulator. -/
theorem scan_rows (rows : List (List (List Char))) :
    ∀ a, (∀ row ∈ rows, (∀ f ∈ row, jsTrimList f = f) ∧ ∃ f ∈ row, f ≠ []) →
      parseCSVAux [] [] a false (serializeRowsL rows) =
        a ++ rows.map (fun row => row.map (fun x => (⟨x⟩ : String))) := by
  induction rows with
  | nil =>
    intro a _
    simp [serializeRowsL, joinSep, parseCSVAux, flushRow]
  | cons row rows ih =>
    intro a hall
    obtain ⟨htrim, hsome⟩ := hall row (by simp)
    have hne : row ≠ [] := by
      obtain ⟨f, hf, _⟩ := hsome
      exact List.ne_nil_of_mem hf
    obtain ⟨g, gs, rfl⟩ := List.exists_cons_of_ne_nil hne
    cases rows with
    | nil =>
      have hshape : serializeRowsL [g :: gs] = serializeFieldsL (g :: gs) ++ [] := by
        simp [serializeRowsL, joinSep]
      rw [hshape, scan_row gs g [] a [] (by simp) htrim, step_end, List.nil_append,
        flushRow_serialized (g :: gs) (by simp) htrim hsome a]
      simp
    | cons row2 rows2 =>
      have hshape : serializeRowsL ((g :: gs) :: row2 :: rows2) =
          serializeFieldsL (g :: gs) ++
            ('\n' :: serializeRowsL (row2 :: rows2)) := by
        simp [serializeRowsL, joinSep]
      rw [hshape, scan_row gs g [] a _ (by simp) htrim, step_newline, List.nil_append,
        flushRow_serialized (g :: gs) (by simp) htrim hsome a,
        ih _ (fun r2 hr2 => hall r2 (by simp [hr2]))]
      simp

/-- C3 counterexample: the round-trip fails even for a row whose single
field is free of embedded newlines, quotes and commas — the parser trims
every field it pushes, so a field with leading whitespace does not survive. -/
theorem roundtrip_cex :
    parseCSV (serializeRows [[" a"]]) = [["a"]] ∧
    ([["a"]] : List (List String)) ≠ [[" a"]] := by
  exact ⟨by decide, by decide⟩

/-- C3 amended: serializing rows with the CSV escaper (fields joined by
commas, rows by newlines) and parsing the result yields the original rows
— including rows containing embedded quotes, commas and newlines —
provided every field is trim-invariant (no leading or trailing JavaScript
whitespace) and every row has at least one non-empty field; the parser
trims every field and drops all-empty rows, so those two conditions are
necessary. -/
theorem parse_serialize_roundtrip (rows : List (List String))
    (h : ∀ row ∈ rows, (∀ f ∈ row, jsTrimStr f = f) ∧ ∃ f ∈ row, f ≠ "") :
    parseCSV (serializeRows rows) = rows := by
  unfold parseCSV serializeRows
  have hall : ∀ row ∈ rows.map (fun r => r.map String.data),
      (∀ f ∈ row, jsTrimList f = f) ∧ ∃ f ∈ row, f ≠ [] := by
    intro row hrow
    obtain ⟨row0, hrow0, rfl⟩ := List.mem_map.mp hrow
    obtain ⟨htrim0, f0, hf0, hf0ne⟩ := h row0 hrow0
    constructor
    · intro f hf
      obtain ⟨s, hs, rfl⟩ := List.mem_map.mp hf
      have := htrim0 s hs
      have hdata := congrArg String.data this
      simpa [jsTrimStr] using hdata
    · refine ⟨f0.data, List.mem_map_of_mem _ hf0, ?_⟩
      intro hdata
      apply hf0ne
      have : f0 = ("" : String) := by
        cases f0 with
        | mk d =>
          have hd : d = [] := by simpa using hdata
          subst hd
          rfl
      exact this
  have hdata : (String.mk (serializeRowsL (rows.map (fun r => r.map String.data)))).data =
      serializeRowsL (rows.map (fun r => r.map String.data)) := rfl
  rw [hdata, scan_rows _ [] hall, List.nil_append]
  have hid : rows.map ((fun row => row.map (fun x => (⟨x⟩ : String))) ∘
      (fun r => r.map String.data)) = rows := by
    refine List.map_congr_left (fun row _ => ?_) |>.trans (List.map_id rows)
    simp only [Function.comp_apply, List.map_map]
    refine List.map_congr_left (fun f _ => rfl) |>.trans (List.map_id row)
  rw [← List.map_map] at hid
  rw [hid]
  refine List.filter_eq_self.mpr (fun row hrow => ?_)
  obtain ⟨_, f, hf, hfne⟩ := h row hrow
  refine List.any_eq_true.mpr ⟨f, hf, ?_⟩
  have hne2 : f.data ≠ [] := by
    intro hdata
    apply hfne
    cases f with
    | mk d =>
      have hd : d = [] := by simpa using hdata
      subst hd
      rfl
  have hlen : f.length > 0 := List.length_pos.mpr hne2
  simpa using hlen

/-- Concrete instantiation of `parse_serialize_roundtrip` on rows with an
embedded comma, an embedded quote and an empty field. -/
theorem parse_serialize_roundtrip_witness :
    parseCSV (serializeRows [["a", "b,c"], ["d\"e", ""]]) =
      [["a", "b,c"], ["d\"e", ""]] :=
  parse_serialize_roundtrip [["a", "b,c"], ["d\"e", ""]] (by decide)

end QuoteLabelWizard
